import Mathlib

/-!
Verification of the jsondeepl/cli translation-sync engine.

Shallow embedding of the pure tree engine of `src/utils.ts`:
validator (`validateJsonFileObject`/`checkNoArrays`), differ
(`extractUniqueKeys`), payload partitioner (`createPerLanguagePayloads` /
`detectMissingTargetLanguages`), merger (`mergeFiles`) and orphan pruner
(`findKeysToRemove` / `removeKeysByPath`).

JSON trees that reach the engine after validation are modelled by `Json`
(string leaves and objects as insertion-ordered association lists, mirroring
JavaScript objects).  For the validator itself a wider type `JsVal` with
arrays, null and opaque primitives is used, since its whole point is to
reject arrays.

JavaScript-specific semantics that the source relies on are modelled
faithfully: property assignment (`setKey`: replace-in-place or append),
`delete` (`deleteKey`), strict equality `!==` on non-object values
(`jsStrictEq`), object spread `{...x}` of a possibly non-object value
(`jsSpreadVal`, which spreads a string into its character-indexed
entries), `String.prototype.split('.')` (`splitPath`), and the
navigate-with-break loop of `removeKeysByPath` (`navDel`).
-/

/-- A validated JSON translation tree: string leaves, or nested objects
given as insertion-ordered association lists (JavaScript object model). -/
inductive Json where
  | str (s : String)
  | obj (entries : List (String × Json))

/-- `o[k]` / `Object.hasOwn(o, k)`: first binding of `k` in the object. -/
def lookupJ : List (String × Json) → String → Option Json
  | [], _ => none
  | (k', v) :: rest, k => if k' = k then some v else lookupJ rest k

/-- JavaScript property assignment `o[k] = v`: replaces the value in place
if the key is present, otherwise appends the binding at the end. -/
def setKey : List (String × Json) → String → Json → List (String × Json)
  | [], k, v => [(k, v)]
  | (k', v') :: rest, k, v =>
    if k' = k then (k, v) :: rest else (k', v') :: setKey rest k v

/-- JavaScript `delete o[k]`: removes the binding of `k` if present. -/
def deleteKey : List (String × Json) → String → List (String × Json)
  | [], _ => []
  | (k', v') :: rest, k =>
    if k' = k then rest else (k', v') :: deleteKey rest k

/-- JavaScript strict equality `a === b` restricted to the way
`extractUniqueKeys` uses it: both-object comparisons never reach it, and
distinct-shape or object/object comparisons are reference inequalities. -/
def jsStrictEq : Json → Json → Bool
  | .str a, .str b => a == b
  | _, _ => false

/-- `extractUniqueKeys(newJson, oldJson)` of `src/utils.ts` (the differ):
for every key of `newJson`, copy it when absent from `oldJson`, recurse when
both values are objects keeping only non-empty results, otherwise keep the
new value when `newJson[key] !== oldJson[key]`.  The code assigns into a
fresh `uniqueKeys` object; since `for...in` visits each own key once, that
equals emitting the selected entries in iteration order, as here. -/
def extractUniqueKeys : List (String × Json) → List (String × Json) → List (String × Json)
  | [], _ => []
  | (k, v) :: rest, old =>
    (match lookupJ old k with
     | none => [(k, v)]
     | some ov =>
       match v, ov with
       | .obj nl, .obj ol =>
         let r := extractUniqueKeys nl ol
         if r.isEmpty then [] else [(k, .obj r)]
       | _, _ => if jsStrictEq v ov then [] else [(k, v)]) ++ extractUniqueKeys rest old
termination_by l _ => sizeOf l
decreasing_by all_goals simp_wf <;> omega

/-- JavaScript object spread `{...x}` where `x` is the value found at a key
(possibly absent or a string, because `mergeFiles` recurses with
`targetVal as JsonFileObject`): `{...undefined} = {}`, `{..."ab"} =
{0:"a", 1:"b"}` (index-keyed characters), `{...o} = o` for an object. -/
def jsSpreadVal : Option Json → List (String × Json)
  | none => []
  | some (.str s) => s.toList.enum.map (fun ic => (toString ic.1, Json.str (String.mk [ic.2])))
  | some (.obj l) => l

/-- The key loop of `mergeFiles(target, source)`: `merged` starts as
`{...target}` and every key of `source` is assigned — recursively merged
when the source value is an object (spreading whatever sits at that key of
the accumulator), overwritten otherwise. -/
def mergeGo : List (String × Json) → List (String × Json) → List (String × Json)
  | merged, [] => merged
  | merged, (k, v) :: rest =>
    match v with
    | .str s => mergeGo (setKey merged k (.str s)) rest
    | .obj s =>
      mergeGo (setKey merged k (.obj (mergeGo (jsSpreadVal (lookupJ merged k)) s))) rest
termination_by _ l => sizeOf l
decreasing_by all_goals simp_wf <;> omega

/-- `mergeFiles(target, source)` of `src/utils.ts` (the merger), at the
top-level call where both arguments are objects. -/
def mergeFiles (target source : List (String × Json)) : List (String × Json) :=
  mergeGo target source

/-- `findKeysToRemove(targetJson, sourceJson, parentKey)` of `src/utils.ts`
(the orphan finder): dotted paths of keys of the target that are absent
from the source, recursing when both sides hold (non-null) objects. -/
def findKeysToRemove : List (String × Json) → List (String × Json) → String → List String
  | [], _, _ => []
  | (k, v) :: rest, src, parentKey =>
    let fullKey := if parentKey = "" then k else parentKey ++ "." ++ k
    (match lookupJ src k with
     | none => [fullKey]
     | some sv =>
       match v, sv with
       | .obj tl, .obj sl => findKeysToRemove tl sl fullKey
       | _, _ => []) ++ findKeysToRemove rest src parentKey
termination_by l _ _ => sizeOf l
decreasing_by all_goals simp_wf <;> omega

/-- JavaScript `path.split('.')`. -/
def splitPath (p : String) : List String :=
  (p.toList.splitOn '.').map (fun cs => String.mk cs)

/-- Last element of a nonempty list of segments (what `parts.pop()` of
`removeKeysByPath` returns). -/
def lastOf : String → List String → String
  | d, [] => d
  | _, x :: xs => lastOf x xs

/-- The body of `removeKeysByPath` for one already-split path: walk the
leading segments while they resolve to objects, `break` as soon as one is
missing or not an object, and then `delete current[lastPart]` on whatever
node the walk stopped at. -/
def navDel : List (String × Json) → List String → List (String × Json)
  | o, [] => o
  | o, [last] => deleteKey o last
  | o, p :: q :: parts =>
    match lookupJ o p with
    | some (.obj sub) => setKey o p (.obj (navDel sub (q :: parts)))
    | _ => deleteKey o (lastOf q parts)

/-- One iteration of the path loop of `removeKeysByPath`. -/
def removeOnePath (o : List (String × Json)) (path : String) : List (String × Json) :=
  navDel o (splitPath path)

/-- `removeKeysByPath(obj, paths)` of `src/utils.ts` (the pruner's deleter);
the in-place mutation over the whole path list is modelled as a fold. -/
def removeKeysByPath (o : List (String × Json)) (paths : List String) : List (String × Json) :=
  paths.foldl removeOnePath o

/-- A raw JSON value as seen by the validator, before any shape is known:
opaque primitives (strings, numbers, booleans), `null`, arrays, objects. -/
inductive JsVal where
  | prim (s : String)
  | jnull
  | arr (elems : List JsVal)
  | obj (entries : List (String × JsVal))

/-- `checkNoArrays(o)` of `src/utils.ts`: fails on an array value, recurses
into truthy object values (`o[key] && typeof o[key] === 'object'`), skips
everything else. -/
def checkNoArrays : List (String × JsVal) → Bool
  | [] => true
  | (_, .arr _) :: _ => false
  | (_, .obj m) :: rest => checkNoArrays m && checkNoArrays rest
  | (_, _) :: rest => checkNoArrays rest
termination_by l => sizeOf l
decreasing_by all_goals simp_wf <;> omega

/-- `validateJsonFileObject(obj)` of `src/utils.ts` (the validator), as a
boolean: `false` means the code calls `process.exit(1)` (InvalidShape). -/
def validateJsonFileObject : JsVal → Bool
  | .obj l => checkNoArrays l
  | _ => false

/-- `detectMissingTargetLanguages(langDir, targetLanguages)` of
`src/utils.ts`; the filesystem probe `fs.existsSync(resolve(langDir,
lang + ".json"))` is abstracted into the predicate `hasFile`. -/
def detectMissingTargetLanguages (hasFile : String → Bool) (targetLanguages : List String) :
    List String :=
  targetLanguages.filter (fun lang => !hasFile lang)

/-- `createPerLanguagePayloads` of `src/utils.ts` (the payload
partitioner): a missing language gets the full `sourceData`, an existing
one gets the delta `extractedKeys`; the insertion-ordered `Map` is
modelled as a list of pairs. -/
def createPerLanguagePayloads (hasFile : String → Bool)
    (sourceData extractedKeys : List (String × Json)) (targetLanguages : List String) :
    List (String × List (String × Json)) :=
  targetLanguages.map (fun lang =>
    (lang,
      if (detectMissingTargetLanguages hasFile targetLanguages).contains lang then sourceData
      else extractedKeys))

/-- `Map.get` on the per-language payload map. -/
def lookupPay : List (String × List (String × Json)) → String → Option (List (String × Json))
  | [], _ => none
  | (k', v) :: rest, k => if k' = k then some v else lookupPay rest k

/-- Value at a (nonempty) dotted path, as a list of segments: follow keys
through nested objects.  The empty path denotes no position (`none`). -/
def getPath : List (String × Json) → List String → Option Json
  | _, [] => none
  | l, [k] => lookupJ l k
  | l, k :: q :: rest =>
    match lookupJ l k with
    | some (.obj m) => getPath m (q :: rest)
    | _ => none

/-- Well-formedness of an object entry list as a JavaScript object: keys
are distinct at every level (JavaScript objects cannot bind a key twice). -/
def wfE : List (String × Json) → Bool
  | [] => true
  | (k, .str _) :: rest => (lookupJ rest k).isNone && wfE rest
  | (k, .obj l) :: rest => (lookupJ rest k).isNone && wfE l && wfE rest
termination_by l => sizeOf l
decreasing_by all_goals simp_wf <;> omega

/-- Well-formedness of a value: objects are recursively well-formed. -/
def wfV : Json → Bool
  | .str _ => true
  | .obj l => wfE l

/-- A key that round-trips through the pruner's dotted-path encoding:
nonempty and containing no `'.'`. -/
def goodKey (k : String) : Bool :=
  (!(k == "")) && k.toList.all (fun c => !(c == '.'))

/-- All keys of a tree, at every depth, are `goodKey`s. -/
def goodKeys : List (String × Json) → Bool
  | [] => true
  | (k, .str _) :: rest => goodKey k && goodKeys rest
  | (k, .obj l) :: rest => goodKey k && goodKeys l && goodKeys rest
termination_by l => sizeOf l
decreasing_by all_goals simp_wf <;> omega

/-- The "type-preserved" relation of the round-trip property: wherever a
key is present on both sides, the two values are either both leaves or both
subtrees (recursively). -/
def typePres : List (String × Json) → List (String × Json) → Bool
  | [], _ => true
  | (k, v) :: rest, src =>
    (match lookupJ src k with
     | none => true
     | some sv =>
       match v, sv with
       | .str _, .str _ => true
       | .obj tl, .obj sl => typePres tl sl
       | _, _ => false) && typePres rest src
termination_by l _ => sizeOf l
decreasing_by all_goals simp_wf <;> omega

/-- Keys of the target that survive pruning against the source: keep a key
iff the source has it, recursing when both sides are objects (used to
characterise what `removeKeysByPath ∘ findKeysToRemove` computes). -/
def filterTree : List (String × Json) → List (String × Json) → List (String × Json)
  | [], _ => []
  | (k, v) :: rest, src =>
    (match lookupJ src k with
     | none => []
     | some sv =>
       match v, sv with
       | .obj tl, .obj sl => [(k, Json.obj (filterTree tl sl))]
       | _, _ => [(k, v)]) ++ filterTree rest src
termination_by l _ => sizeOf l
decreasing_by all_goals simp_wf <;> omega

/-- The per-key effect of one pruning round. -/
def filterVal : Json → Json → Json
  | .obj tl, .obj sl => .obj (filterTree tl sl)
  | v, _ => v

/-- Spec-side predicate of the validator contract: some value at some depth
inside the tree is an array. -/
def containsArray : JsVal → Bool
  | .arr _ => true
  | .obj [] => false
  | .obj ((_, v) :: rest) => containsArray v || containsArray (.obj rest)
  | _ => false
termination_by v => sizeOf v
decreasing_by all_goals simp_wf <;> omega

/-- Spec-side predicate: the root is a non-null, non-array object. -/
def isObjRoot : JsVal → Bool
  | .obj _ => true
  | _ => false

/-- Spec-side per-key description of the differ (clause by clause from the
spec): key absent from the previous tree → the entire new value; both
subtrees → the recursive diff when non-empty; both leaves → the new leaf
exactly when strictly unequal; one leaf and one subtree → the whole new
value with no recursion; keys absent from the current tree never appear. -/
def diffSpecAt : Option Json → Option Json → Option Json
  | none, _ => none
  | some v, none => some v
  | some (.obj nl), some (.obj ol) =>
    let r := extractUniqueKeys nl ol
    if r.isEmpty then none else some (.obj r)
  | some (.str s), some (.str t) => if s = t then none else some (.str s)
  | some v, some _ => some v

/-- No proper prefix of the path resolves, in the given tree, to a leaf:
walking the leading segments, every segment that is present holds a
subtree (once a segment is absent, deeper prefixes are absent too). -/
def leafFreePath : List (String × Json) → List String → Bool
  | _, [] => true
  | _, [_] => true
  | src, k :: q :: rest =>
    match lookupJ src k with
    | some (.obj sl) => leafFreePath sl (q :: rest)
    | some (.str _) => false
    | none => true

/-! ## Basic facts about the JavaScript object primitives -/

theorem lookupJ_setKey_self (l : List (String × Json)) (k : String) (v : Json) :
    lookupJ (setKey l k v) k = some v := by
  induction l with
  | nil => simp [setKey, lookupJ]
  | cons hd rest ih =>
    obtain ⟨k', v'⟩ := hd
    by_cases h : k' = k <;> simp [setKey, lookupJ, h, ih]

theorem lookupJ_setKey_ne (l : List (String × Json)) (k k' : String) (v : Json)
    (h : k' ≠ k) : lookupJ (setKey l k' v) k = lookupJ l k := by
  induction l with
  | nil => simp [setKey, lookupJ, h]
  | cons hd rest ih =>
    obtain ⟨k₁, v₁⟩ := hd
    by_cases h₁ : k₁ = k' <;> by_cases h₂ : k₁ = k <;>
      simp_all [setKey, lookupJ]

theorem setKey_of_lookupJ_eq (l : List (String × Json)) (k : String) (v : Json)
    (h : lookupJ l k = some v) : setKey l k v = l := by
  induction l with
  | nil => simp [lookupJ] at h
  | cons hd rest ih =>
    obtain ⟨k₁, v₁⟩ := hd
    by_cases h₁ : k₁ = k
    · subst h₁
      simp [lookupJ] at h
      simp [setKey, h]
    · simp [lookupJ, h₁] at h
      simp [setKey, h₁, ih h]

theorem lookupJ_isSome_setKey (l : List (String × Json)) (k k' : String) (v : Json)
    (h : (lookupJ l k).isSome = true) : (lookupJ (setKey l k' v) k).isSome = true := by
  by_cases hk : k' = k
  · subst hk; simp [lookupJ_setKey_self]
  · rwa [lookupJ_setKey_ne _ _ _ _ hk]

theorem setKey_comm_of_isSome (l : List (String × Json)) (k k' : String) (v w : Json)
    (hne : k ≠ k') (hmem : (lookupJ l k).isSome = true) :
    setKey (setKey l k v) k' w = setKey (setKey l k' w) k v := by
  induction l with
  | nil => simp [lookupJ] at hmem
  | cons hd rest ih =>
    obtain ⟨k₁, v₁⟩ := hd
    by_cases h₁ : k₁ = k
    · subst h₁
      simp [setKey, hne, Ne.symm hne]
    · by_cases h₂ : k₁ = k'
      · subst h₂
        simp [setKey, h₁, Ne.symm hne]
      · simp [lookupJ, h₁] at hmem
        simp [setKey, h₁, h₂, ih hmem]

/-! ## C6: the validator -/

theorem checkNoArrays_eq : ∀ l, checkNoArrays l = !containsArray (JsVal.obj l)
  | [] => by simp [checkNoArrays, containsArray]
  | (k, .prim s) :: rest => by
    simp [checkNoArrays, containsArray, checkNoArrays_eq rest]
  | (k, .jnull) :: rest => by
    simp [checkNoArrays, containsArray, checkNoArrays_eq rest]
  | (k, .arr es) :: rest => by
    simp [checkNoArrays, containsArray]
  | (k, .obj m) :: rest => by
    simp [checkNoArrays, containsArray, checkNoArrays_eq m, checkNoArrays_eq rest]
termination_by l => sizeOf l
decreasing_by all_goals simp_wf <;> omega

/-- C6: the validator fails exactly when the root is not a non-null,
non-array object or some value at some depth inside the tree is an array;
in particular `{a:[1,2,3]}` and `{a:{b:[1]}}` are both rejected (and an
object-rooted, array-free tree passes, by the equivalence). -/
theorem C6_validator_rejects_iff :
    (∀ v, validateJsonFileObject v = false ↔
      (isObjRoot v = false ∨ containsArray v = true))
    ∧ validateJsonFileObject
        (JsVal.obj [("a", JsVal.arr [JsVal.prim "1", JsVal.prim "2", JsVal.prim "3"])]) = false
    ∧ validateJsonFileObject
        (JsVal.obj [("a", JsVal.obj [("b", JsVal.arr [JsVal.prim "1"])])]) = false := by
  refine ⟨fun v => ?_, ?_, ?_⟩
  · cases v with
    | prim s => simp [validateJsonFileObject, isObjRoot, containsArray]
    | jnull => simp [validateJsonFileObject, isObjRoot, containsArray]
    | arr es => simp [validateJsonFileObject, isObjRoot, containsArray]
    | obj l => simp [validateJsonFileObject, isObjRoot, checkNoArrays_eq l]
  · simp [validateJsonFileObject, checkNoArrays]
  · simp [validateJsonFileObject, checkNoArrays]

/-! ## C7: the payload partitioner -/

/-- C7: each target language is mapped to the full source tree exactly when
no persisted target file exists for it, and to the delta otherwise; when
the delta is empty and every target file exists, every payload is empty. -/
theorem lookupPay_map_self (f : String → List (String × Json)) (langs : List String)
    (lang : String) (h : lang ∈ langs) :
    lookupPay (langs.map (fun l => (l, f l))) lang = some (f lang) := by
  induction langs with
  | nil => simp at h
  | cons hd rest ih =>
    by_cases hd_eq : hd = lang
    · subst hd_eq
      simp [lookupPay]
    · rcases List.mem_cons.mp h with h' | h'
      · exact absurd h'.symm hd_eq
      · simp [lookupPay, hd_eq, ih h']

theorem detectMissing_contains (hasFile : String → Bool) (langs : List String)
    (lang : String) (h : lang ∈ langs) :
    (detectMissingTargetLanguages hasFile langs).contains lang = !hasFile lang := by
  have hmem_iff : lang ∈ detectMissingTargetLanguages hasFile langs ↔ hasFile lang = false := by
    simp [detectMissingTargetLanguages, List.mem_filter, h]
  show List.elem lang (detectMissingTargetLanguages hasFile langs) = !hasFile lang
  by_cases hf : hasFile lang = true
  · rw [hf, Bool.not_true, Bool.eq_false_iff]
    intro hc
    exact absurd (hmem_iff.mp (List.elem_iff.mp hc)) (by simp [hf])
  · have hf' : hasFile lang = false := by simpa using hf
    rw [hf', Bool.not_false]
    exact List.elem_iff.mpr (hmem_iff.mpr hf')

theorem C7_partitioner (hasFile : String → Bool)
    (sourceData extractedKeys : List (String × Json)) (targetLanguages : List String) :
    (∀ lang, lang ∈ targetLanguages →
      lookupPay (createPerLanguagePayloads hasFile sourceData extractedKeys targetLanguages) lang
        = some (if hasFile lang then extractedKeys else sourceData))
    ∧ (extractedKeys = [] → (∀ lang, lang ∈ targetLanguages → hasFile lang = true) →
        ∀ pr, pr ∈ createPerLanguagePayloads hasFile sourceData extractedKeys targetLanguages →
          pr.2 = []) := by
  constructor
  · intro lang hmem
    rw [createPerLanguagePayloads, lookupPay_map_self _ _ _ hmem,
      detectMissing_contains hasFile _ _ hmem]
    by_cases h : hasFile lang <;> simp [h]
  · intro hdelta hall pr hpr
    simp only [createPerLanguagePayloads, List.mem_map] at hpr
    obtain ⟨lang, hlang, rfl⟩ := hpr
    rw [detectMissing_contains hasFile _ _ hlang]
    simp [hall lang hlang, hdelta]

/-! ## The merger: per-key characterisation -/

/-- What `mergeFiles` leaves at one key, as a function of what the
accumulator and the source hold there. -/
def mergeValAt (mv : Option Json) : Option Json → Option Json
  | none => mv
  | some (.str t) => some (.str t)
  | some (.obj sl) => some (.obj (mergeGo (jsSpreadVal mv) sl))

theorem wfE_cons (k : String) (v : Json) (rest : List (String × Json))
    (h : wfE ((k, v) :: rest) = true) :
    lookupJ rest k = none ∧ wfV v = true ∧ wfE rest = true := by
  cases v with
  | str s => simpa [wfE, wfV, Option.isNone_iff_eq_none] using h
  | obj l =>
    simp only [wfE, Bool.and_eq_true, Option.isNone_iff_eq_none] at h
    exact ⟨h.1.1, h.1.2, h.2⟩

theorem wfV_of_lookupJ (S : List (String × Json)) (k : String) (w : Json)
    (hS : wfE S = true) (h : lookupJ S k = some w) : wfV w = true := by
  induction S with
  | nil => simp [lookupJ] at h
  | cons hd rest ih =>
    obtain ⟨k₁, v₁⟩ := hd
    obtain ⟨-, hv₁, hrest⟩ := wfE_cons k₁ v₁ rest hS
    by_cases h₁ : k₁ = k
    · subst h₁
      simp [lookupJ] at h
      exact h ▸ hv₁
    · simp [lookupJ, h₁] at h
      exact ih hrest h

theorem mergeGo_lookup (s : List (String × Json)) (hs : wfE s = true)
    (M : List (String × Json)) (k : String) :
    lookupJ (mergeGo M s) k = mergeValAt (lookupJ M k) (lookupJ s k) := by
  induction s generalizing M with
  | nil => simp [mergeGo, lookupJ, mergeValAt]
  | cons hd rest ih =>
    obtain ⟨k₂, v₂⟩ := hd
    obtain ⟨hk₂, -, hrest⟩ := wfE_cons k₂ v₂ rest hs
    by_cases h : k₂ = k
    · subst h
      cases v₂ with
      | str t =>
        rw [mergeGo, ih hrest, hk₂]
        simp [mergeValAt, lookupJ, lookupJ_setKey_self]
      | obj e =>
        rw [mergeGo, ih hrest, hk₂]
        simp [mergeValAt, lookupJ, lookupJ_setKey_self]
    · cases v₂ with
      | str t =>
        rw [mergeGo, ih hrest, lookupJ_setKey_ne _ _ _ _ h]
        simp [lookupJ, h]
      | obj e =>
        rw [mergeGo, ih hrest, lookupJ_setKey_ne _ _ _ _ h]
        simp [lookupJ, h]

theorem mergeGo_getPath_preserve (p : List String) (T S : List (String × Json))
    (hS : wfE S = true) (v : Json) (hT : getPath T p = some v)
    (hnone : getPath S p = none) (hfree : leafFreePath S p = true) :
    getPath (mergeGo T S) p = some v := by
  induction p generalizing T S with
  | nil => simp [getPath] at hT
  | cons k q ih =>
    cases q with
    | nil =>
      simp only [getPath] at hT hnone ⊢
      rw [mergeGo_lookup S hS T k, hnone, mergeValAt, hT]
    | cons q₂ rest =>
      simp only [getPath] at hT ⊢
      rcases hTk : lookupJ T k with _ | tv
      · rw [hTk] at hT; simp at hT
      · rw [hTk] at hT
        cases tv with
        | str s => simp at hT
        | obj tl =>
          rw [mergeGo_lookup S hS T k, hTk]
          rcases hSk : lookupJ S k with _ | sv
          · simp [mergeValAt]
            exact hT
          · cases sv with
            | str t =>
              exfalso
              simp only [leafFreePath, hSk] at hfree
              exact Bool.false_ne_true hfree
            | obj sl =>
              simp only [mergeValAt, jsSpreadVal]
              have hS' : wfV (Json.obj sl) = true := wfV_of_lookupJ S k _ hS hSk
              simp only [getPath, hSk] at hnone
              simp only [leafFreePath, hSk] at hfree
              exact ih tl sl (by simpa [wfV] using hS') hT hnone hfree

theorem mergeGo_getPath_source_leaf (p : List String) (T S : List (String × Json))
    (hS : wfE S = true) (t : String) (h : getPath S p = some (.str t)) :
    getPath (mergeGo T S) p = some (.str t) := by
  induction p generalizing T S with
  | nil => simp [getPath] at h
  | cons k q ih =>
    cases q with
    | nil =>
      simp only [getPath] at h ⊢
      rw [mergeGo_lookup S hS T k, h, mergeValAt]
    | cons q₂ rest =>
      simp only [getPath] at h ⊢
      rcases hSk : lookupJ S k with _ | sv
      · rw [hSk] at h; simp at h
      · rw [hSk] at h
        cases sv with
        | str s => simp at h
        | obj sl =>
          rw [mergeGo_lookup S hS T k, hSk, mergeValAt]
          have hS' : wfV (Json.obj sl) = true := wfV_of_lookupJ S k _ hS hSk
          exact ih (jsSpreadVal (lookupJ T k)) sl (by simpa [wfV] using hS') h

theorem mergeGo_setKey (s : List (String × Json)) (M : List (String × Json))
    (k : String) (v : Json) (hnone : lookupJ s k = none)
    (hmem : (lookupJ M k).isSome = true) :
    mergeGo (setKey M k v) s = setKey (mergeGo M s) k v := by
  induction s generalizing M with
  | nil => simp [mergeGo]
  | cons hd rest ih =>
    obtain ⟨k₂, v₂⟩ := hd
    have hne : k₂ ≠ k := by
      intro h
      simp [lookupJ, h] at hnone
    have hrest : lookupJ rest k = none := by
      simpa [lookupJ, hne] using hnone
    have hkne : k ≠ k₂ := Ne.symm hne
    cases v₂ with
    | str t =>
      rw [mergeGo, mergeGo, setKey_comm_of_isSome M k k₂ v (.str t) hkne hmem,
        ih (setKey M k₂ (.str t)) hrest (lookupJ_isSome_setKey M k k₂ (.str t) hmem)]
    | obj e =>
      rw [mergeGo, mergeGo, lookupJ_setKey_ne M k₂ k v hkne,
        setKey_comm_of_isSome M k k₂ v _ hkne hmem,
        ih (setKey M k₂ _) hrest (lookupJ_isSome_setKey M k k₂ _ hmem)]

theorem mergeGo_idem : ∀ (s : List (String × Json)), wfE s = true →
    ∀ M, mergeGo (mergeGo M s) s = mergeGo M s
  | [], _, M => by simp [mergeGo]
  | (k, .str t) :: rest, hs, M => by
    obtain ⟨hk, -, hrest⟩ := wfE_cons k (.str t) rest hs
    have hA : lookupJ (mergeGo (setKey M k (.str t)) rest) k = some (.str t) := by
      rw [mergeGo_lookup rest hrest, hk, mergeValAt, lookupJ_setKey_self]
    simp only [mergeGo]
    rw [mergeGo_setKey rest _ k (.str t) hk (by simp [hA]),
      mergeGo_idem rest hrest (setKey M k (.str t)),
      setKey_of_lookupJ_eq _ _ _ hA]
  | (k, .obj e) :: rest, hs, M => by
    obtain ⟨hk, hv, hrest⟩ := wfE_cons k (.obj e) rest hs
    have hwe : wfE e = true := by simpa [wfV] using hv
    have hA : lookupJ (mergeGo (setKey M k
        (.obj (mergeGo (jsSpreadVal (lookupJ M k)) e))) rest) k
        = some (.obj (mergeGo (jsSpreadVal (lookupJ M k)) e)) := by
      rw [mergeGo_lookup rest hrest, hk, mergeValAt, lookupJ_setKey_self]
    simp only [mergeGo]
    rw [hA]
    rw [show jsSpreadVal (some (Json.obj (mergeGo (jsSpreadVal (lookupJ M k)) e)))
        = mergeGo (jsSpreadVal (lookupJ M k)) e from rfl]
    rw [mergeGo_idem e hwe (jsSpreadVal (lookupJ M k))]
    rw [mergeGo_setKey rest _ k _ hk (by simp [hA]),
      mergeGo_idem rest hrest (setKey M k _),
      setKey_of_lookupJ_eq _ _ _ hA]
termination_by s => sizeOf s
decreasing_by all_goals simp_wf <;> omega

/-! ## Claim theorems: merger and pruner deletions -/

/-- C1: evaluation at the failing input.  For target `{a:"x", c:"y"}` and
path `"a.c"`, the intermediate segment `a` is not a subtree, so the claim
says the tree must be left completely unchanged; `removeKeysByPath`
instead breaks out of the walk and still deletes the final segment `c`
from the node it stopped at, removing the unrelated top-level key `c`. -/
theorem C1_removeKeysByPath_break_still_deletes :
    removeKeysByPath [("a", Json.str "x"), ("c", Json.str "y")] ["a.c"]
      = [("a", Json.str "x")] := rfl

/-- C2: evaluation at the failing input.  Merging newly translated
`{a:{b:"1"}}` into existing `{a:"ab"}`: the claim says the string leaf
`"ab"` is treated exactly as the empty subtree `{}`, so the merged value
at `a` should be `{b:"1"}`; the code instead spreads the string into its
character-indexed entries, producing `{a:{"0":"a","1":"b","b":"1"}}`. -/
theorem C2_merge_spreads_string_leaf :
    mergeFiles [("a", Json.str "ab")] [("a", Json.obj [("b", Json.str "1")])]
      = [("a", Json.obj [("0", Json.str "a"), ("1", Json.str "b"), ("b", Json.str "1")])]
    ∧ mergeFiles [("a", Json.str "ab")] [("a", Json.obj [("b", Json.str "1")])]
      ≠ [("a", Json.obj [("b", Json.str "1")])] := by
  have he : mergeFiles [("a", Json.str "ab")] [("a", Json.obj [("b", Json.str "1")])]
      = [("a", Json.obj [("0", Json.str "a"), ("1", Json.str "b"), ("b", Json.str "1")])] := by
    simp [mergeFiles, mergeGo, jsSpreadVal, setKey, lookupJ]
    rfl
  refine ⟨he, ?_⟩
  rw [he]
  intro h
  simp at h

/-- C4 (amended): any key path present only in the existing target and
absent from the newly translated tree is preserved unchanged by the merge,
provided no proper prefix of the path holds a leaf in the newly translated
tree (when it does, the leaf overwrites the whole existing subtree — see
the counterexample); and every leaf of the newly translated tree — in
particular every conflicting leaf key — resolves to the newly translated
value.  (Purity of the merge is intrinsic to the model: `mergeFiles`
builds a new list from `{...target}` and never rewrites its inputs.) -/
theorem C4_merge_preservation (T S : List (String × Json)) (hS : wfE S = true) :
    (∀ p v, getPath T p = some v → getPath S p = none → leafFreePath S p = true →
      getPath (mergeFiles T S) p = some v)
    ∧ (∀ p t, getPath S p = some (.str t) → getPath (mergeFiles T S) p = some (.str t)) :=
  ⟨fun p v hT hn hf => mergeGo_getPath_preserve p T S hS v hT hn hf,
   fun p t h => mergeGo_getPath_source_leaf p T S hS t h⟩

/-- C4, counterexample to the claim as stated: with existing target
`{a:{b:"keep"}}` and newly translated `{a:"new"}`, the key `a.b` is
present only in the existing target and absent from the newly translated
tree, yet it is not preserved in the merge result. -/
theorem C4_counterexample :
    getPath [("a", Json.obj [("b", Json.str "keep")])] ["a", "b"] = some (Json.str "keep")
    ∧ getPath [("a", Json.str "new")] ["a", "b"] = none
    ∧ getPath (mergeFiles [("a", Json.obj [("b", Json.str "keep")])] [("a", Json.str "new")])
        ["a", "b"] = none := by
  refine ⟨rfl, rfl, ?_⟩
  simp [mergeFiles, mergeGo, setKey, getPath, lookupJ]

/-- Witness for C4 at scenario 3: target `{x:"old", y:"keep"}`, translated
`{x:"new", z:"added"}`: `y` is preserved and `x` resolves to the new value. -/
theorem C4_merge_preservation_witness :
    wfE [("x", Json.str "new"), ("z", Json.str "added")] = true
    ∧ getPath (mergeFiles [("x", Json.str "old"), ("y", Json.str "keep")]
        [("x", Json.str "new"), ("z", Json.str "added")]) ["y"] = some (Json.str "keep")
    ∧ getPath (mergeFiles [("x", Json.str "old"), ("y", Json.str "keep")]
        [("x", Json.str "new"), ("z", Json.str "added")]) ["x"] = some (Json.str "new") :=
  ⟨by simp [wfE, lookupJ],
   (C4_merge_preservation _ _ (by simp [wfE, lookupJ])).1 ["y"] (Json.str "keep") rfl rfl rfl,
   (C4_merge_preservation _ _ (by simp [wfE, lookupJ])).2 ["x"] "new" rfl⟩

/-- C9: re-applying the same translation batch to an already-merged tree
changes nothing: `merge(merge(T,S),S) = merge(T,S)`. -/
theorem C9_merge_idempotent (T S : List (String × Json)) (hS : wfE S = true) :
    mergeFiles (mergeFiles T S) S = mergeFiles T S :=
  mergeGo_idem S hS T

/-- Witness for C9 at scenario 3's trees. -/
theorem C9_merge_idempotent_witness :
    wfE [("x", Json.str "new"), ("z", Json.str "added")] = true
    ∧ mergeFiles (mergeFiles [("x", Json.str "old"), ("y", Json.str "keep")]
          [("x", Json.str "new"), ("z", Json.str "added")])
        [("x", Json.str "new"), ("z", Json.str "added")]
      = mergeFiles [("x", Json.str "old"), ("y", Json.str "keep")]
          [("x", Json.str "new"), ("z", Json.str "added")] :=
  ⟨by simp [wfE, lookupJ],
   C9_merge_idempotent _ _ (by simp [wfE, lookupJ])⟩

/-! ## The differ: per-key characterisation -/

theorem lookupJ_ne_none_of_mem (l : List (String × Json)) (k : String) (v : Json)
    (hm : (k, v) ∈ l) : lookupJ l k ≠ none := by
  induction l with
  | nil => simp at hm
  | cons hd rest ih =>
    obtain ⟨k₁, v₁⟩ := hd
    by_cases h₁ : k₁ = k
    · simp [lookupJ, h₁]
    · rcases List.mem_cons.mp hm with h | h
      · exact absurd (congrArg Prod.fst h).symm h₁
      · simpa [lookupJ, h₁] using ih h

theorem lookupJ_of_mem_wfE (l : List (String × Json)) (h : wfE l = true)
    (k : String) (v : Json) (hm : (k, v) ∈ l) : lookupJ l k = some v := by
  induction l with
  | nil => simp at hm
  | cons hd rest ih =>
    obtain ⟨k₁, v₁⟩ := hd
    obtain ⟨hk₁, -, hrest⟩ := wfE_cons k₁ v₁ rest h
    rcases List.mem_cons.mp hm with h' | h'
    · rw [Prod.mk.injEq] at h'
      obtain ⟨h₁, h₂⟩ := h'
      subst h₁
      subst h₂
      simp [lookupJ]
    · by_cases h₁ : k₁ = k
      · subst h₁
        exact absurd hk₁ (lookupJ_ne_none_of_mem rest _ v h')
      · simpa [lookupJ, h₁] using ih hrest h'

theorem extract_lookup_none (X old : List (String × Json)) (k : String)
    (h : lookupJ X k = none) : lookupJ (extractUniqueKeys X old) k = none := by
  induction X with
  | nil => simp [extractUniqueKeys, lookupJ]
  | cons hd rest ih =>
    obtain ⟨k₁, v₁⟩ := hd
    have hne : k₁ ≠ k := by
      intro he
      simp [lookupJ, he] at h
    have hrest : lookupJ rest k = none := by
      simpa [lookupJ, hne] using h
    rw [extractUniqueKeys]
    rcases lookupJ old k₁ with _ | ov
    · simpa [lookupJ, hne] using ih hrest
    · rcases v₁ with s₁ | nl <;> rcases ov with s₂ | ol
      · by_cases he : jsStrictEq (.str s₁) (.str s₂) = true <;>
          simp only [he, if_pos, if_neg, Bool.not_eq_true] <;>
          simpa [lookupJ, hne] using ih hrest
      · simp only [jsStrictEq, if_neg Bool.false_ne_true]
        simpa [lookupJ, hne] using ih hrest
      · simp only [jsStrictEq, if_neg Bool.false_ne_true]
        simpa [lookupJ, hne] using ih hrest
      · by_cases he : (extractUniqueKeys nl ol).isEmpty = true <;>
          simp only [he, if_pos, if_neg, Bool.not_eq_true] <;>
          simpa [lookupJ, hne] using ih hrest

theorem extract_lookup (X old : List (String × Json)) (h : wfE X = true) (k : String) :
    lookupJ (extractUniqueKeys X old) k = diffSpecAt (lookupJ X k) (lookupJ old k) := by
  induction X with
  | nil => simp [extractUniqueKeys, lookupJ, diffSpecAt]
  | cons hd rest ih =>
    obtain ⟨k₁, v₁⟩ := hd
    obtain ⟨hk₁, -, hrest⟩ := wfE_cons k₁ v₁ rest h
    by_cases hke : k₁ = k
    · subst hke
      have htail : lookupJ (extractUniqueKeys rest old) k₁ = none :=
        extract_lookup_none rest old k₁ hk₁
      rw [extractUniqueKeys]
      simp only [lookupJ, if_pos rfl]
      rcases hold : lookupJ old k₁ with _ | ov
      · simp [lookupJ, diffSpecAt]
      · rcases v₁ with s₁ | nl <;> rcases ov with s₂ | ol
        · simp only [jsStrictEq, diffSpecAt]
          by_cases he : s₁ = s₂
          · simp [he, htail]
          · simp [he, lookupJ, htail]
        · simp only [jsStrictEq, diffSpecAt, if_neg Bool.false_ne_true]
          simp [lookupJ]
        · simp only [jsStrictEq, diffSpecAt, if_neg Bool.false_ne_true]
          simp [lookupJ]
        · simp only [diffSpecAt]
          by_cases he : (extractUniqueKeys nl ol).isEmpty = true
          · simp [he, htail]
          · simp [he, lookupJ]
    · rw [extractUniqueKeys]
      have hXk : lookupJ ((k₁, v₁) :: rest) k = lookupJ rest k := by
        simp [lookupJ, hke]
      rw [hXk]
      rcases lookupJ old k₁ with _ | ov
      · simpa [lookupJ, hke] using ih hrest
      · rcases v₁ with s₁ | nl <;> rcases ov with s₂ | ol
        · by_cases he : jsStrictEq (.str s₁) (.str s₂) = true <;>
            simp only [he, if_pos, if_neg, Bool.not_eq_true] <;>
            simpa [lookupJ, hke] using ih hrest
        · simp only [jsStrictEq, if_neg Bool.false_ne_true]
          simpa [lookupJ, hke] using ih hrest
        · simp only [jsStrictEq, if_neg Bool.false_ne_true]
          simpa [lookupJ, hke] using ih hrest
        · by_cases he : (extractUniqueKeys nl ol).isEmpty = true <;>
            simp only [he, if_pos, if_neg, Bool.not_eq_true] <;>
            simpa [lookupJ, hke] using ih hrest


theorem extract_eq_nil_of_sub : ∀ (X A : List (String × Json)), wfE A = true →
    (∀ kv, kv ∈ X → lookupJ A kv.1 = some kv.2) → extractUniqueKeys X A = []
  | [], _, _, _ => by simp [extractUniqueKeys]
  | (k, .str t) :: rest, A, hA, hsub => by
    have hk : lookupJ A k = some (.str t) := hsub (k, .str t) (List.mem_cons_self _ _)
    have htail : extractUniqueKeys rest A = [] :=
      extract_eq_nil_of_sub rest A hA (fun kv hm => hsub kv (List.mem_cons_of_mem _ hm))
    rw [extractUniqueKeys, hk, htail]
    simp [jsStrictEq]
  | (k, .obj tl) :: rest, A, hA, hsub => by
    have hk : lookupJ A k = some (.obj tl) := hsub (k, .obj tl) (List.mem_cons_self _ _)
    have htail : extractUniqueKeys rest A = [] :=
      extract_eq_nil_of_sub rest A hA (fun kv hm => hsub kv (List.mem_cons_of_mem _ hm))
    have hwtl : wfE tl = true := by
      simpa [wfV] using wfV_of_lookupJ A k _ hA hk
    have hself : extractUniqueKeys tl tl = [] :=
      extract_eq_nil_of_sub tl tl hwtl
        (fun kv hm => lookupJ_of_mem_wfE tl hwtl kv.1 kv.2 hm)
    rw [extractUniqueKeys, hk, htail]
    simp [hself]
termination_by X _ => sizeOf X
decreasing_by all_goals simp_wf <;> omega

theorem diffSpecAt_str (cv pv : Option Json) (s : String)
    (h : diffSpecAt cv pv = some (.str s)) : cv = some (.str s) := by
  rcases cv with _ | c
  · rcases pv with _ | p <;> simp [diffSpecAt] at h
  · rcases pv with _ | p
    · simpa [diffSpecAt] using h
    · rcases c with s₁ | nl <;> rcases p with s₂ | ol
      · simp only [diffSpecAt] at h
        split at h
        · exact absurd h (by simp)
        · exact h
      · simpa [diffSpecAt] using h
      · simp [diffSpecAt] at h
      · simp only [diffSpecAt] at h
        split at h <;> simp at h

theorem diffSpecAt_obj (cv pv : Option Json) (m : List (String × Json))
    (h : diffSpecAt cv pv = some (.obj m)) :
    cv = some (.obj m)
    ∨ ∃ nl ol, cv = some (.obj nl) ∧ pv = some (.obj ol)
        ∧ m = extractUniqueKeys nl ol := by
  rcases cv with _ | c
  · rcases pv with _ | p <;> simp [diffSpecAt] at h
  · rcases pv with _ | p
    · simp only [diffSpecAt] at h
      exact Or.inl h
    · rcases c with s₁ | nl <;> rcases p with s₂ | ol
      · simp only [diffSpecAt] at h
        split at h <;> simp at h
      · simp only [diffSpecAt] at h
        exact Or.inl h
      · simp only [diffSpecAt] at h
        exact Or.inl h
      · simp only [diffSpecAt] at h
        split at h
        · simp at h
        · refine Or.inr ⟨nl, ol, rfl, rfl, ?_⟩
          have := Option.some.inj h
          exact (Json.obj.inj this).symm

/-- C3: per-key characterisation of the differ, exactly as the claim lists
it: a key of `current` absent from `previous` is copied unchanged; with
subtrees on both sides the recursive diff is included only when non-empty
(never emitted as `{}`); equal leaves are omitted and strictly unequal
leaves yield the new leaf; a leaf/subtree shape change yields the whole
new value with no recursion; keys only in `previous` never appear. -/
theorem C3_differ_characterisation (current previous : List (String × Json))
    (h : wfE current = true) (k : String) :
    lookupJ (extractUniqueKeys current previous) k
      = diffSpecAt (lookupJ current k) (lookupJ previous k) :=
  extract_lookup current previous h k

/-- Witness for C3 at scenario 1 (new nested key) and an equal-leaf key. -/
theorem C3_differ_characterisation_witness :
    wfE [("a", Json.str "1"), ("b", Json.obj [("c", Json.str "2")])] = true
    ∧ lookupJ (extractUniqueKeys [("a", Json.str "1"), ("b", Json.obj [("c", Json.str "2")])]
        [("a", Json.str "1")]) "b"
      = diffSpecAt (some (Json.obj [("c", Json.str "2")])) none
    ∧ lookupJ (extractUniqueKeys [("a", Json.str "1"), ("b", Json.obj [("c", Json.str "2")])]
        [("a", Json.str "1")]) "a"
      = diffSpecAt (some (Json.str "1")) (some (Json.str "1")) :=
  ⟨by simp [wfE, lookupJ],
   C3_differ_characterisation _ [("a", Json.str "1")] (by simp [wfE, lookupJ]) "b",
   C3_differ_characterisation _ [("a", Json.str "1")] (by simp [wfE, lookupJ]) "a"⟩

/-- C8: diffing a tree against an identical previous snapshot yields the
empty delta: `diff(A, A) = {}`. -/
theorem C8_diff_self_empty (A : List (String × Json)) (h : wfE A = true) :
    extractUniqueKeys A A = [] :=
  extract_eq_nil_of_sub A A h (fun kv hm => lookupJ_of_mem_wfE A h kv.1 kv.2 hm)

/-- Witness for C8 on a two-level tree. -/
theorem C8_diff_self_empty_witness :
    wfE [("a", Json.str "1"), ("b", Json.obj [("c", Json.str "2")])] = true
    ∧ extractUniqueKeys [("a", Json.str "1"), ("b", Json.obj [("c", Json.str "2")])]
        [("a", Json.str "1"), ("b", Json.obj [("c", Json.str "2")])] = [] :=
  ⟨by simp [wfE, lookupJ],
   C8_diff_self_empty _ (by simp [wfE, lookupJ])⟩

/-- C10: every leaf of the diff result carries exactly the value found at
the same path in the current tree: the differ copies values verbatim from
`current` and never synthesizes values or takes them from `previous`. -/
theorem C10_diff_leaves_from_current (current previous : List (String × Json))
    (h : wfE current = true) :
    ∀ p s, getPath (extractUniqueKeys current previous) p = some (.str s) →
      getPath current p = some (.str s) := by
  intro p
  induction p generalizing current previous with
  | nil =>
    intro s hs
    simp [getPath] at hs
  | cons k q ih =>
    intro s hs
    cases q with
    | nil =>
      simp only [getPath] at hs ⊢
      rw [extract_lookup current previous h k] at hs
      exact diffSpecAt_str _ _ _ hs
    | cons q₂ rest =>
      simp only [getPath] at hs ⊢
      rcases hm : lookupJ (extractUniqueKeys current previous) k with _ | mv
      · rw [hm] at hs
        simp at hs
      · rw [hm] at hs
        rcases mv with s₁ | m
        · simp at hs
        · rw [extract_lookup current previous h k] at hm
          rcases diffSpecAt_obj _ _ _ hm with hcv | ⟨nl, ol, hcv, hpv, hme⟩
          · rw [hcv]
            exact hs
          · rw [hcv]
            have hnl : wfE nl = true := by
              simpa [wfV] using wfV_of_lookupJ current k _ h hcv
            subst hme
            exact ih nl ol hnl s hs

/-- Witness for C7: language `es` has no file and receives the full source,
`fr` has one and receives the (empty) delta, which is then empty. -/
theorem C7_partitioner_witness :
    lookupPay (createPerLanguagePayloads (fun l => l == "fr")
        [("k", Json.str "v")] [] ["fr", "es"]) "es" = some [("k", Json.str "v")]
    ∧ lookupPay (createPerLanguagePayloads (fun l => l == "fr")
        [("k", Json.str "v")] [] ["fr", "es"]) "fr" = some []
    ∧ (("fr", ([] : List (String × Json))).2 = []) :=
  by
  have h1 := (C7_partitioner (fun l => l == "fr") [("k", Json.str "v")] [] ["fr", "es"]).1
  have h2 := (C7_partitioner (fun _ => true) [("k", Json.str "v")] [] ["fr"]).2
  refine ⟨?_, ?_, ?_⟩
  · simpa using h1 "es" (by simp)
  · simpa using h1 "fr" (by simp)
  · exact h2 rfl (fun _ _ => rfl) ("fr", [])
      (by simp [createPerLanguagePayloads, detectMissingTargetLanguages])

/-- Witness for C10: the leaf at path `b.c` of a concrete diff result
matches the current tree. -/
theorem C10_diff_leaves_from_current_witness :
    wfE [("a", Json.str "1"), ("b", Json.obj [("c", Json.str "2")])] = true
    ∧ getPath [("a", Json.str "1"), ("b", Json.obj [("c", Json.str "2")])] ["b", "c"]
      = some (Json.str "2") :=
  ⟨by simp [wfE, lookupJ],
   C10_diff_leaves_from_current
     [("a", Json.str "1"), ("b", Json.obj [("c", Json.str "2")])]
     [("b", Json.obj [("x", Json.str "9")])]
     (by simp [wfE, lookupJ]) ["b", "c"] "2"
     (by simp [extractUniqueKeys, lookupJ, jsStrictEq, getPath])⟩

/-! ## The pruner: dotted-path infrastructure -/

theorem String.mk_toList (s : String) : String.mk s.toList = s := rfl

theorem str_append_data (a b : String) : (a ++ b).toList = a.toList ++ b.toList :=
  String.data_append a b

theorem str_append_assoc (a b c : String) : (a ++ b) ++ c = a ++ (b ++ c) := by
  apply String.ext
  show ((a ++ b) ++ c).data = (a ++ (b ++ c)).data
  rw [String.data_append, String.data_append, String.data_append, String.data_append,
    List.append_assoc]

theorem dotted_ne_empty (a b : String) : a ++ "." ++ b ≠ "" := by
  intro h
  have : (a ++ "." ++ b).data = ("" : String).data := by rw [h]
  rw [String.data_append, String.data_append] at this
  simp at this

theorem goodKey_no_dot (k : String) (h : goodKey k = true) :
    ∀ c ∈ k.toList, ¬((c == '.') = true) := by
  intro c hc
  simp only [goodKey, Bool.and_eq_true, List.all_eq_true] at h
  have := h.2 c hc
  simp at this
  simp [this]

theorem goodKey_ne_empty (k : String) (h : goodKey k = true) : k ≠ "" := by
  simp only [goodKey, Bool.and_eq_true] at h
  simpa using h.1

theorem splitPath_ne_nil (p : String) : splitPath p ≠ [] := by
  intro h
  have := List.splitOnP_ne_nil (p := (· == '.')) p.toList
  simp only [splitPath, List.splitOn] at h
  exact this (List.map_eq_nil_iff.mp h)

theorem splitPath_key (k : String) (h : goodKey k = true) : splitPath k = [k] := by
  rw [splitPath, List.splitOn,
    List.splitOnP_eq_single (fun x => x == '.') k.toList (goodKey_no_dot k h)]
  simp [String.mk_toList]

theorem splitPath_append (k p : String) (h : goodKey k = true) :
    splitPath (k ++ "." ++ p) = k :: splitPath p := by
  rw [splitPath, splitPath]
  have hdata : (k ++ "." ++ p).toList = k.toList ++ '.' :: p.toList := by
    rw [str_append_data, str_append_data, List.append_assoc]
    rfl
  rw [hdata, List.splitOn,
    List.splitOnP_first (fun x => x == '.') k.toList (goodKey_no_dot k h) '.' (by simp) p.toList]
  simp [List.splitOn, String.mk_toList]

theorem lookupJ_append (a b : List (String × Json)) (k : String) :
    lookupJ (a ++ b) k
      = match lookupJ a k with
        | some v => some v
        | none => lookupJ b k := by
  induction a with
  | nil => simp [lookupJ]
  | cons hd rest ih =>
    obtain ⟨k₁, v₁⟩ := hd
    by_cases h₁ : k₁ = k <;> simp [lookupJ, h₁, ih]

theorem lookupJ_append_none (a b : List (String × Json)) (k : String)
    (h : lookupJ a k = none) : lookupJ (a ++ b) k = lookupJ b k := by
  rw [lookupJ_append, h]

theorem setKey_append_right (a b : List (String × Json)) (k : String) (v : Json)
    (h : lookupJ a k = none) : setKey (a ++ b) k v = a ++ setKey b k v := by
  induction a with
  | nil => simp
  | cons hd rest ih =>
    obtain ⟨k₁, v₁⟩ := hd
    have hne : k₁ ≠ k := by
      intro he
      simp [lookupJ, he] at h
    have hrest : lookupJ rest k = none := by simpa [lookupJ, hne] using h
    simp [setKey, hne, ih hrest]

theorem deleteKey_append_right (a b : List (String × Json)) (k : String)
    (h : lookupJ a k = none) : deleteKey (a ++ b) k = a ++ deleteKey b k := by
  induction a with
  | nil => simp
  | cons hd rest ih =>
    obtain ⟨k₁, v₁⟩ := hd
    have hne : k₁ ≠ k := by
      intro he
      simp [lookupJ, he] at h
    have hrest : lookupJ rest k = none := by simpa [lookupJ, hne] using h
    simp [deleteKey, hne, ih hrest]

theorem goodKeys_cons (k : String) (v : Json) (rest : List (String × Json))
    (h : goodKeys ((k, v) :: rest) = true) :
    goodKey k = true ∧ (∀ tl, v = .obj tl → goodKeys tl = true) ∧ goodKeys rest = true := by
  cases v with
  | str s =>
    simp only [goodKeys, Bool.and_eq_true] at h
    exact ⟨h.1, fun tl htl => by simp at htl, h.2⟩
  | obj l =>
    simp only [goodKeys, Bool.and_eq_true] at h
    exact ⟨h.1.1, fun tl htl => by rw [← Json.obj.inj htl]; exact h.1.2, h.2⟩

theorem removeKeysByPath_append (X : List (String × Json)) (a b : List String) :
    removeKeysByPath X (a ++ b) = removeKeysByPath (removeKeysByPath X a) b :=
  List.foldl_append removeOnePath X a b

theorem removeOnePath_under (F R tl : List (String × Json)) (k p : String)
    (hgk : goodKey k = true) (hF : lookupJ F k = none) :
    removeOnePath (F ++ (k, .obj tl) :: R) (k ++ "." ++ p)
      = F ++ (k, .obj (removeOnePath tl p)) :: R := by
  rw [removeOnePath, splitPath_append k p hgk]
  obtain ⟨q, parts, hq⟩ : ∃ q parts, splitPath p = q :: parts := by
    rcases hsp : splitPath p with _ | ⟨q, parts⟩
    · exact absurd hsp (splitPath_ne_nil p)
    · exact ⟨q, parts, rfl⟩
  have hlook : lookupJ (F ++ (k, Json.obj tl) :: R) k = some (.obj tl) := by
    rw [lookupJ_append_none _ _ _ hF]
    simp [lookupJ]
  rw [hq]
  simp only [navDel, hlook]
  rw [setKey_append_right _ _ _ _ hF]
  simp [setKey, removeOnePath, hq]

theorem removeKeysByPath_under (ps : List String) (F R tl : List (String × Json)) (k : String)
    (hgk : goodKey k = true) (hF : lookupJ F k = none) :
    removeKeysByPath (F ++ (k, .obj tl) :: R) (ps.map (fun p => k ++ "." ++ p))
      = F ++ (k, .obj (removeKeysByPath tl ps)) :: R := by
  induction ps generalizing tl with
  | nil => simp [removeKeysByPath]
  | cons p rest ih =>
    simp only [List.map_cons, removeKeysByPath, List.foldl_cons]
    rw [show removeOnePath (F ++ (k, Json.obj tl) :: R) (k ++ "." ++ p)
        = F ++ (k, Json.obj (removeOnePath tl p)) :: R
      from removeOnePath_under F R tl k p hgk hF]
    exact ih (removeOnePath tl p)

theorem removeOnePath_key (X : List (String × Json)) (k : String)
    (hgk : goodKey k = true) : removeOnePath X k = deleteKey X k := by
  rw [removeOnePath, splitPath_key k hgk]
  rfl

theorem findKeysToRemove_parent : ∀ (X S : List (String × Json)) (par : String),
    par ≠ "" → goodKeys X = true →
    findKeysToRemove X S par = (findKeysToRemove X S "").map (fun p => par ++ "." ++ p)
  | [], _, _, _, _ => by simp [findKeysToRemove]
  | (k, .str s) :: rest, S, par, hpar, hgood => by
    obtain ⟨hgk, -, hgrest⟩ := goodKeys_cons k (.str s) rest hgood
    have htail := findKeysToRemove_parent rest S par hpar hgrest
    rw [findKeysToRemove, findKeysToRemove, htail]
    simp only [if_neg hpar, if_pos rfl, List.map_append]
    congr 1
    rcases hS : lookupJ S k with _ | sv
    · show [par ++ "." ++ k] = List.map (fun p => par ++ "." ++ p) [k]
      simp
    · cases sv with
      | str t =>
        show ([] : List String) = List.map (fun p => par ++ "." ++ p) []
        simp
      | obj sl =>
        show ([] : List String) = List.map (fun p => par ++ "." ++ p) []
        simp
  | (k, .obj tl) :: rest, S, par, hpar, hgood => by
    obtain ⟨hgk, hgtl, hgrest⟩ := goodKeys_cons k (.obj tl) rest hgood
    have htail := findKeysToRemove_parent rest S par hpar hgrest
    rw [findKeysToRemove, findKeysToRemove, htail]
    simp only [if_neg hpar, if_pos rfl, List.map_append]
    congr 1
    rcases hS : lookupJ S k with _ | sv
    · show [par ++ "." ++ k] = List.map (fun p => par ++ "." ++ p) [k]
      simp
    · cases sv with
      | str s =>
        show ([] : List String) = List.map (fun p => par ++ "." ++ p) []
        simp
      | obj sl =>
        show findKeysToRemove tl sl (par ++ "." ++ k)
          = List.map (fun p => par ++ "." ++ p) (findKeysToRemove tl sl k)
        have h1 := findKeysToRemove_parent tl sl (par ++ "." ++ k)
          (dotted_ne_empty par k) (hgtl tl rfl)
        have h2 := findKeysToRemove_parent tl sl k (goodKey_ne_empty k hgk) (hgtl tl rfl)
        rw [h1, h2, List.map_map]
        apply List.map_congr_left
        intro p hp
        show (par ++ "." ++ k) ++ "." ++ p = par ++ "." ++ (k ++ "." ++ p)
        apply String.ext
        show ((par ++ "." ++ k) ++ "." ++ p).data = (par ++ "." ++ (k ++ "." ++ p)).data
        simp only [String.data_append, List.append_assoc]
termination_by X _ _ => sizeOf X
decreasing_by all_goals simp_wf <;> omega

theorem append_single_cons (F : List (String × Json)) (x : String × Json)
    (R : List (String × Json)) : F ++ x :: R = (F ++ [x]) ++ R := by
  simp

theorem deleteKey_cons_self (k : String) (v : Json) (R : List (String × Json)) :
    deleteKey ((k, v) :: R) k = R := by
  simp [deleteKey]

theorem prune_eq_filter : ∀ (R S F : List (String × Json)),
    wfE R = true → goodKeys R = true →
    (∀ kv, kv ∈ R → lookupJ F kv.1 = none) →
    removeKeysByPath (F ++ R) (findKeysToRemove R S "") = F ++ filterTree R S
  | [], S, F, _, _, _ => by
    rw [findKeysToRemove, filterTree]
    simp [removeKeysByPath]
  | (k, .str t) :: R', S, F, hwf, hgood, hdisj => by
    obtain ⟨hkR, -, hwR⟩ := wfE_cons k (.str t) R' hwf
    obtain ⟨hgk, -, hgR⟩ := goodKeys_cons k (.str t) R' hgood
    have hFk : lookupJ F k = none := hdisj (k, .str t) (List.mem_cons_self _ _)
    have hdisj' : ∀ kv, kv ∈ R' → lookupJ F kv.1 = none :=
      fun kv hm => hdisj kv (List.mem_cons_of_mem _ hm)
    have hne_k : ∀ kv, kv ∈ R' → k ≠ kv.1 := fun kv hm he =>
      lookupJ_ne_none_of_mem R' kv.1 kv.2 hm (by rw [← he]; exact hkR)
    have hdisj₂ : ∀ kv, kv ∈ R' → lookupJ (F ++ [(k, Json.str t)]) kv.1 = none := by
      intro kv hm
      rw [lookupJ_append, hdisj' kv hm]
      simp [lookupJ, hne_k kv hm]
    rw [findKeysToRemove, filterTree]
    rcases hS : lookupJ S k with _ | sv
    · show removeKeysByPath (F ++ (k, Json.str t) :: R') ([k] ++ findKeysToRemove R' S "")
        = F ++ ([] ++ filterTree R' S)
      rw [removeKeysByPath_append,
        show removeKeysByPath (F ++ (k, Json.str t) :: R') [k]
            = removeOnePath (F ++ (k, Json.str t) :: R') k from rfl,
        removeOnePath_key _ k hgk, deleteKey_append_right _ _ _ hFk,
        deleteKey_cons_self, prune_eq_filter R' S F hwR hgR hdisj']
      simp
    · cases sv with
      | str u =>
        show removeKeysByPath (F ++ (k, Json.str t) :: R') ([] ++ findKeysToRemove R' S "")
          = F ++ ([(k, Json.str t)] ++ filterTree R' S)
        rw [List.nil_append, append_single_cons,
          prune_eq_filter R' S (F ++ [(k, Json.str t)]) hwR hgR hdisj₂]
        simp
      | obj sl =>
        show removeKeysByPath (F ++ (k, Json.str t) :: R') ([] ++ findKeysToRemove R' S "")
          = F ++ ([(k, Json.str t)] ++ filterTree R' S)
        rw [List.nil_append, append_single_cons,
          prune_eq_filter R' S (F ++ [(k, Json.str t)]) hwR hgR hdisj₂]
        simp
  | (k, .obj tl) :: R', S, F, hwf, hgood, hdisj => by
    obtain ⟨hkR, hv, hwR⟩ := wfE_cons k (.obj tl) R' hwf
    obtain ⟨hgk, hgtl, hgR⟩ := goodKeys_cons k (.obj tl) R' hgood
    have hwtl : wfE tl = true := by simpa [wfV] using hv
    have hgtl' : goodKeys tl = true := hgtl tl rfl
    have hFk : lookupJ F k = none := hdisj (k, .obj tl) (List.mem_cons_self _ _)
    have hdisj' : ∀ kv, kv ∈ R' → lookupJ F kv.1 = none :=
      fun kv hm => hdisj kv (List.mem_cons_of_mem _ hm)
    have hne_k : ∀ kv, kv ∈ R' → k ≠ kv.1 := fun kv hm he =>
      lookupJ_ne_none_of_mem R' kv.1 kv.2 hm (by rw [← he]; exact hkR)
    rw [findKeysToRemove, filterTree]
    rcases hS : lookupJ S k with _ | sv
    · show removeKeysByPath (F ++ (k, Json.obj tl) :: R') ([k] ++ findKeysToRemove R' S "")
        = F ++ ([] ++ filterTree R' S)
      rw [removeKeysByPath_append,
        show removeKeysByPath (F ++ (k, Json.obj tl) :: R') [k]
            = removeOnePath (F ++ (k, Json.obj tl) :: R') k from rfl,
        removeOnePath_key _ k hgk, deleteKey_append_right _ _ _ hFk,
        deleteKey_cons_self, prune_eq_filter R' S F hwR hgR hdisj']
      simp
    · cases sv with
      | str u =>
        have hdisj₂ : ∀ kv, kv ∈ R' → lookupJ (F ++ [(k, Json.obj tl)]) kv.1 = none := by
          intro kv hm
          rw [lookupJ_append, hdisj' kv hm]
          simp [lookupJ, hne_k kv hm]
        show removeKeysByPath (F ++ (k, Json.obj tl) :: R') ([] ++ findKeysToRemove R' S "")
          = F ++ ([(k, Json.obj tl)] ++ filterTree R' S)
        rw [List.nil_append, append_single_cons,
          prune_eq_filter R' S (F ++ [(k, Json.obj tl)]) hwR hgR hdisj₂]
        simp
      | obj sl =>
        have hdisj₂ : ∀ kv, kv ∈ R' →
            lookupJ (F ++ [(k, Json.obj (filterTree tl sl))]) kv.1 = none := by
          intro kv hm
          rw [lookupJ_append, hdisj' kv hm]
          simp [lookupJ, hne_k kv hm]
        show removeKeysByPath (F ++ (k, Json.obj tl) :: R')
            (findKeysToRemove tl sl k ++ findKeysToRemove R' S "")
          = F ++ ([(k, Json.obj (filterTree tl sl))] ++ filterTree R' S)
        rw [removeKeysByPath_append,
          findKeysToRemove_parent tl sl k (goodKey_ne_empty k hgk) hgtl',
          removeKeysByPath_under (findKeysToRemove tl sl "") F R' tl k hgk hFk,
          show removeKeysByPath tl (findKeysToRemove tl sl "") = filterTree tl sl from by
            simpa using prune_eq_filter tl sl [] hwtl hgtl' (fun kv hm => rfl),
          append_single_cons,
          prune_eq_filter R' S (F ++ [(k, Json.obj (filterTree tl sl))]) hwR hgR hdisj₂]
        simp
termination_by R _ _ => sizeOf R
decreasing_by all_goals simp_wf <;> omega

/-- Per-key effect of pruning, as a function of both lookups. -/
def filterAt : Option Json → Option Json → Option Json
  | some v, some w => some (filterVal v w)
  | _, _ => none

theorem lookupJ_filterTree (T S : List (String × Json)) (k : String) :
    lookupJ (filterTree T S) k = filterAt (lookupJ T k) (lookupJ S k) := by
  induction T with
  | nil => simp [filterTree, lookupJ, filterAt]
  | cons hd R ih =>
    obtain ⟨k₁, v₁⟩ := hd
    rw [filterTree]
    by_cases hke : k₁ = k
    · subst hke
      rcases hS : lookupJ S k₁ with _ | w
      · show lookupJ ([] ++ filterTree R S) k₁ = filterAt (lookupJ ((k₁, v₁) :: R) k₁) none
        rw [List.nil_append, ih, hS]
        rcases lookupJ R k₁ with _ | x <;> simp [filterAt, lookupJ]
      · cases v₁ with
        | str s =>
          cases w with
          | str u =>
            show lookupJ ([(k₁, Json.str s)] ++ filterTree R S) k₁
              = filterAt (lookupJ ((k₁, Json.str s) :: R) k₁) (some (Json.str u))
            simp [lookupJ, filterAt, filterVal]
          | obj sl =>
            show lookupJ ([(k₁, Json.str s)] ++ filterTree R S) k₁
              = filterAt (lookupJ ((k₁, Json.str s) :: R) k₁) (some (Json.obj sl))
            simp [lookupJ, filterAt, filterVal]
        | obj tl =>
          cases w with
          | str u =>
            show lookupJ ([(k₁, Json.obj tl)] ++ filterTree R S) k₁
              = filterAt (lookupJ ((k₁, Json.obj tl) :: R) k₁) (some (Json.str u))
            simp [lookupJ, filterAt, filterVal]
          | obj sl =>
            show lookupJ ([(k₁, Json.obj (filterTree tl sl))] ++ filterTree R S) k₁
              = filterAt (lookupJ ((k₁, Json.obj tl) :: R) k₁) (some (Json.obj sl))
            simp [lookupJ, filterAt, filterVal]
    · have hskip : lookupJ ((k₁, v₁) :: R) k = lookupJ R k := by
        simp [lookupJ, hke]
      rw [hskip]
      rcases hS : lookupJ S k₁ with _ | w
      · show lookupJ ([] ++ filterTree R S) k = filterAt (lookupJ R k) (lookupJ S k)
        rw [List.nil_append, ih]
      · cases v₁ with
        | str s =>
          cases w with
          | str u =>
            show lookupJ ([(k₁, Json.str s)] ++ filterTree R S) k
              = filterAt (lookupJ R k) (lookupJ S k)
            simp [lookupJ, hke, ih]
          | obj sl =>
            show lookupJ ([(k₁, Json.str s)] ++ filterTree R S) k
              = filterAt (lookupJ R k) (lookupJ S k)
            simp [lookupJ, hke, ih]
        | obj tl =>
          cases w with
          | str u =>
            show lookupJ ([(k₁, Json.obj tl)] ++ filterTree R S) k
              = filterAt (lookupJ R k) (lookupJ S k)
            simp [lookupJ, hke, ih]
          | obj sl =>
            show lookupJ ([(k₁, Json.obj (filterTree tl sl))] ++ filterTree R S) k
              = filterAt (lookupJ R k) (lookupJ S k)
            simp [lookupJ, hke, ih]

theorem typePres_lookup (T S : List (String × Json)) (k : String) (htp : typePres T S = true) :
    ∀ tl, lookupJ T k = some (.obj tl) → ∀ w, lookupJ S k = some w →
      ∃ sl, w = .obj sl ∧ typePres tl sl = true := by
  induction T with
  | nil =>
    intro tl h
    simp [lookupJ] at h
  | cons hd R ih =>
    obtain ⟨k₁, v₁⟩ := hd
    rw [typePres, Bool.and_eq_true] at htp
    intro tl hT w hS
    by_cases hke : k₁ = k
    · subst hke
      simp only [lookupJ, if_pos rfl] at hT
      obtain rfl : v₁ = Json.obj tl := Option.some.inj hT
      rw [hS] at htp
      cases w with
      | str u => simp at htp
      | obj sl => exact ⟨sl, rfl, by simpa using htp.1⟩
    · simp only [lookupJ, if_neg hke] at hT
      exact ih htp.2 tl hT w hS

theorem filterTree_present (p : List String) : ∀ (T S : List (String × Json)),
    typePres T S = true →
    (getPath (filterTree T S) p).isSome = ((getPath T p).isSome && (getPath S p).isSome) := by
  induction p with
  | nil =>
    intro T S htp
    simp [getPath]
  | cons k q ih =>
    intro T S htp
    cases q with
    | nil =>
      simp only [getPath]
      rw [lookupJ_filterTree]
      rcases lookupJ T k with _ | v <;> rcases lookupJ S k with _ | w <;>
        simp [filterAt]
    | cons q₂ rest =>
      simp only [getPath]
      rw [lookupJ_filterTree]
      rcases hT : lookupJ T k with _ | v
      · simp [filterAt]
      · rcases hS : lookupJ S k with _ | w
        · simp [filterAt]
        · cases v with
          | str s => cases w <;> simp [filterAt, filterVal]
          | obj tl =>
            cases w with
            | str u =>
              obtain ⟨sl, hw, -⟩ := typePres_lookup T S k htp tl hT (.str u) hS
              exact absurd hw (by simp)
            | obj sl =>
              obtain ⟨sl', hw, htp'⟩ := typePres_lookup T S k htp tl hT (.obj sl) hS
              have hsl : sl' = sl := (Json.obj.inj hw).symm
              rw [hsl] at htp'
              show (getPath (filterTree tl sl) (q₂ :: rest)).isSome
                = ((getPath tl (q₂ :: rest)).isSome && (getPath sl (q₂ :: rest)).isSome)
              exact ih tl sl htp'

theorem findKeysToRemove_append (a b S : List (String × Json)) (par : String) :
    findKeysToRemove (a ++ b) S par
      = findKeysToRemove a S par ++ findKeysToRemove b S par := by
  induction a with
  | nil => rw [findKeysToRemove, List.nil_append, List.nil_append]
  | cons hd rest ih =>
    obtain ⟨k, v⟩ := hd
    rw [List.cons_append, findKeysToRemove, findKeysToRemove, ih, List.append_assoc]

theorem orphans_filter_empty : ∀ (T S : List (String × Json)) (par : String),
    findKeysToRemove (filterTree T S) S par = []
  | [], S, par => by
    rw [filterTree, findKeysToRemove]
  | (k, .str t) :: R, S, par => by
    rw [filterTree, findKeysToRemove_append]
    rcases hS : lookupJ S k with _ | sv
    · show findKeysToRemove ([] : List (String × Json)) S par
          ++ findKeysToRemove (filterTree R S) S par = []
      rw [findKeysToRemove, orphans_filter_empty R S par]
      rfl
    · cases sv with
      | str u =>
        show findKeysToRemove [(k, Json.str t)] S par
            ++ findKeysToRemove (filterTree R S) S par = []
        rw [findKeysToRemove, findKeysToRemove, hS, orphans_filter_empty R S par]
        rfl
      | obj sl =>
        show findKeysToRemove [(k, Json.str t)] S par
            ++ findKeysToRemove (filterTree R S) S par = []
        rw [findKeysToRemove, findKeysToRemove, hS, orphans_filter_empty R S par]
        rfl
  | (k, .obj tl) :: R, S, par => by
    rw [filterTree, findKeysToRemove_append]
    rcases hS : lookupJ S k with _ | sv
    · show findKeysToRemove ([] : List (String × Json)) S par
          ++ findKeysToRemove (filterTree R S) S par = []
      rw [findKeysToRemove, orphans_filter_empty R S par]
      rfl
    · cases sv with
      | str u =>
        show findKeysToRemove [(k, Json.obj tl)] S par
            ++ findKeysToRemove (filterTree R S) S par = []
        rw [findKeysToRemove, findKeysToRemove, hS, orphans_filter_empty R S par]
        rfl
      | obj sl =>
        show findKeysToRemove [(k, Json.obj (filterTree tl sl))] S par
            ++ findKeysToRemove (filterTree R S) S par = []
        rw [findKeysToRemove, findKeysToRemove, hS, orphans_filter_empty R S par]
        show findKeysToRemove (filterTree tl sl) sl
            (if par = "" then k else par ++ "." ++ k) ++ ([] ++ []) ++ [] = []
        rw [orphans_filter_empty tl sl (if par = "" then k else par ++ "." ++ k)]
        rfl
termination_by T _ _ => sizeOf T
decreasing_by all_goals simp_wf <;> omega

/-- C5 (amended): in the type-preserved case, and provided every key of the
target tree is nonempty and dot-free (so that the dotted-path encoding of
orphans is faithful — see the counterexample for a dotted key),
`removeKeysByPath T (findKeysToRemove T S "")` leaves exactly the key
positions present in both `T` and `S`, recursively; in particular
`findKeysToRemove` run again on the pruned result returns `[]`. -/
theorem C5_prune_roundtrip (T S : List (String × Json)) (hwf : wfE T = true)
    (hgood : goodKeys T = true) (htp : typePres T S = true) :
    (∀ p, (getPath (removeKeysByPath T (findKeysToRemove T S "")) p).isSome
        = ((getPath T p).isSome && (getPath S p).isSome))
    ∧ findKeysToRemove (removeKeysByPath T (findKeysToRemove T S "")) S "" = [] := by
  have heq : removeKeysByPath T (findKeysToRemove T S "") = filterTree T S := by
    have h := prune_eq_filter T S [] hwf hgood (fun kv hm => rfl)
    simpa using h
  rw [heq]
  exact ⟨fun p => filterTree_present p T S htp, orphans_filter_empty T S ""⟩

/-- C5, counterexample to the claim as stated: for the type-preserved pair
`T = {"a.b": "1"}`, `S = {}`, the single orphan path `a.b` re-splits at the
dot inside the key, so removal is a no-op: the pruned tree still contains
the key `a.b` that does not exist in `S`, and `findKeysToRemove` run again
on the pruned result returns `["a.b"]`, not `[]`. -/
theorem C5_counterexample :
    typePres [("a.b", Json.str "1")] [] = true
    ∧ wfE [("a.b", Json.str "1")] = true
    ∧ (getPath (removeKeysByPath [("a.b", Json.str "1")]
        (findKeysToRemove [("a.b", Json.str "1")] [] "")) ["a.b"]).isSome = true
    ∧ (getPath ([] : List (String × Json)) ["a.b"]).isSome = false
    ∧ findKeysToRemove (removeKeysByPath [("a.b", Json.str "1")]
        (findKeysToRemove [("a.b", Json.str "1")] [] "")) [] ""
      = ["a.b"] := by
  have horphans : findKeysToRemove [("a.b", Json.str "1")] [] "" = ["a.b"] := by
    simp [findKeysToRemove, lookupJ]
  have hremove : removeKeysByPath [("a.b", Json.str "1")] ["a.b"]
      = [("a.b", Json.str "1")] := rfl
  refine ⟨?_, ?_, ?_, rfl, ?_⟩
  · simp [typePres, lookupJ]
  · simp [wfE, lookupJ]
  · rw [horphans, hremove]
    rfl
  · rw [horphans, hremove, horphans]

/-- Witness for C5 at scenario 4: target `{a:{b:"1", c:"2"}}`, source
`{a:{b:"1"}}`. -/
theorem C5_prune_roundtrip_witness :
    wfE [("a", Json.obj [("b", Json.str "1"), ("c", Json.str "2")])] = true
    ∧ goodKeys [("a", Json.obj [("b", Json.str "1"), ("c", Json.str "2")])] = true
    ∧ typePres [("a", Json.obj [("b", Json.str "1"), ("c", Json.str "2")])]
        [("a", Json.obj [("b", Json.str "1")])] = true
    ∧ (getPath (removeKeysByPath [("a", Json.obj [("b", Json.str "1"), ("c", Json.str "2")])]
          (findKeysToRemove [("a", Json.obj [("b", Json.str "1"), ("c", Json.str "2")])]
            [("a", Json.obj [("b", Json.str "1")])] "")) ["a", "c"]).isSome
      = ((getPath [("a", Json.obj [("b", Json.str "1"), ("c", Json.str "2")])]
            ["a", "c"]).isSome
        && (getPath [("a", Json.obj [("b", Json.str "1")])] ["a", "c"]).isSome)
    ∧ findKeysToRemove (removeKeysByPath
          [("a", Json.obj [("b", Json.str "1"), ("c", Json.str "2")])]
          (findKeysToRemove [("a", Json.obj [("b", Json.str "1"), ("c", Json.str "2")])]
            [("a", Json.obj [("b", Json.str "1")])] ""))
        [("a", Json.obj [("b", Json.str "1")])] "" = [] := by
  have h1 : wfE [("a", Json.obj [("b", Json.str "1"), ("c", Json.str "2")])] = true := by
    simp [wfE, lookupJ]
  have h2 : goodKeys [("a", Json.obj [("b", Json.str "1"), ("c", Json.str "2")])] = true := by
    simp only [goodKeys, goodKey]
    decide
  have h3 : typePres [("a", Json.obj [("b", Json.str "1"), ("c", Json.str "2")])]
      [("a", Json.obj [("b", Json.str "1")])] = true := by
    simp [typePres, lookupJ]
  exact ⟨h1, h2, h3,
    (C5_prune_roundtrip _ _ h1 h2 h3).1 ["a", "c"],
    (C5_prune_roundtrip _ _ h1 h2 h3).2⟩
